import Mathlib

/-!
Verification of the `cutjson` path-navigation and rule-application engine
(`cutjson/cut_json.go`) against its specification.

The embedding works on parsed JSON values: `CutWithRules` in the source first
runs `json.Unmarshal` and finally `json.Marshal`; the engine between those two
steps (`applyRules`, `navigateToValue`, `buildResultStructure`, `valueEquals`
and the three rule-application functions) is embedded here as total functions
over a `JValue` tree, with the Go error values modelled by `CutError` and Go
in-place map mutation rendered as explicit state passing.

Go `int` arithmetic in the array-index scanner is modelled as 64-bit
two's-complement arithmetic (`Nat` bit patterns modulo `2 ^ 64`, interpreted
signed), so overflow behaves as in the source.  The out-of-bounds byte access
`currentSegment[0]` on an empty segment, which panics in Go, is modelled by a
dedicated error branch `CutError.panicIndexOutOfRange`.
-/

namespace CutJson

/-- Error values of the engine.  `invalidJSON`, `pathNotFound`, `invalidPath`
and `invalidRule` are the four sentinel errors of `cut_json.go`;
`notAnArray` is the ad-hoc `errors.New("path does not point to an array")`
from `applyKeepArrayElementsIfChildValueMatchesRule`; `panicIndexOutOfRange`
marks the index-out-of-range panic a Go run would raise at
`currentSegment[0]` (line 245). -/
inductive CutError : Type where
  | invalidJSON : CutError
  | pathNotFound : CutError
  | invalidPath : CutError
  | invalidRule : CutError
  | notAnArray : CutError
  | panicIndexOutOfRange : CutError
deriving DecidableEq, Repr

mutual
/-- A parsed JSON document, the shape `json.Unmarshal` produces for a Go
`interface{}`: `nil`, booleans, numbers (`float64` in Go, modelled as exact
rationals), strings, `[]interface{}` slices and `map[string]interface{}`
maps. -/
inductive JValue : Type where
  | null : JValue
  | bool : Bool → JValue
  | num : Rat → JValue
  | str : String → JValue
  | arr : JArray → JValue
  | obj : JObject → JValue

/-- A `[]interface{}` slice of parsed JSON values. -/
inductive JArray : Type where
  | nil : JArray
  | cons : JValue → JArray → JArray

/-- A `map[string]interface{}` of parsed JSON values, as a key/value list.
Maps produced by `json.Unmarshal` have pairwise-distinct keys; that
invariant is stated separately as `keysNodup` / `wfValue`. -/
inductive JObject : Type where
  | nil : JObject
  | cons : String → JValue → JObject → JObject
end

deriving instance DecidableEq for JValue

/-- Length of a slice (`len(v)` in Go). -/
def JArray.length : JArray → Nat
  | .nil => 0
  | .cons _ rest => rest.length + 1

/-- Element access `v[index]`; the engine only uses it behind the bounds
check at line 254, so the `.null` default is never observable. -/
def JArray.getD : JArray → Nat → JValue
  | .nil, _ => .null
  | .cons x _, 0 => x
  | .cons _ rest, n + 1 => rest.getD n

/-- View of a slice as a `List`, used to state order/membership properties. -/
def JArray.toList : JArray → List JValue
  | .nil => []
  | .cons x rest => x :: rest.toList

/-- Map lookup `v[k]` (with its `ok` flag rendered as `Option`). -/
def JObject.lookup : JObject → String → Option JValue
  | .nil, _ => none
  | .cons k v rest, key => if k = key then some v else rest.lookup key

/-- Map update `m[k] = v`: replaces the binding if the key is present,
otherwise adds it. -/
def JObject.set : JObject → String → JValue → JObject
  | .nil, key, value => .cons key value .nil
  | .cons k v rest, key, value =>
    if k = key then .cons key value rest else .cons k v (rest.set key value)

/-- Number of entries of a map (`len` in Go). -/
def JObject.length : JObject → Nat
  | .nil => 0
  | .cons _ _ rest => rest.length + 1

/-- View of a map as a key/value `List`. -/
def JObject.toList : JObject → List (String × JValue)
  | .nil => []
  | .cons k v rest => (k, v) :: rest.toList

/-- Pairwise-distinct keys, the invariant every Go map enjoys. -/
def keysNodup : JObject → Bool
  | .nil => true
  | .cons k _ rest => !(rest.lookup k).isSome && keysNodup rest

mutual
/-- Well-formedness of a parsed document: every object node in the tree has
pairwise-distinct keys.  Every value produced by `json.Unmarshal` satisfies
this, since Go maps cannot hold duplicate keys. -/
def wfValue : JValue → Bool
  | .arr a => wfArr a
  | .obj o => keysNodup o && wfObj o
  | _ => true

/-- `wfValue` for every element of a slice. -/
def wfArr : JArray → Bool
  | .nil => true
  | .cons x rest => wfValue x && wfArr rest

/-- `wfValue` for every value of a map. -/
def wfObj : JObject → Bool
  | .nil => true
  | .cons _ v rest => wfValue v && wfObj rest
end

/-! ### Path splitting

`strings.Split(path, ".")` from `applyKeep*Rule` (lines 128, 145, 179, 194):
splitting on the single-character separator `.`, where an empty input yields
`[""]` and adjacent/trailing dots yield empty segments. -/

/-- Accumulator pass of `strings.Split(s, ".")` over the characters of `s`. -/
def splitPathAux : List Char → List Char → List String
  | [], acc => [String.mk acc.reverse]
  | c :: rest, acc =>
    if c = '.' then String.mk acc.reverse :: splitPathAux rest []
    else splitPathAux rest (c :: acc)

/-- `strings.Split(path, ".")`. -/
def splitPath (path : String) : List String :=
  splitPathAux path.data []

/-! ### The array-index scanner (lines 232-242)

Go `int` is 64-bit here; the accumulation `index = index*10 + int(c-'0')`
wraps modulo `2 ^ 64`.  Since the accumulator stays a non-negative bit
pattern, we carry it as a `Nat` below `2 ^ 64` and re-interpret it as a
signed value afterwards. -/

/-- 64-bit wrap-around of a non-negative accumulation. -/
def wrap64 (n : Nat) : Nat := n % (2 ^ 64)

/-- Signed reading of a 64-bit pattern. -/
def toSigned64 (bits : Nat) : Int :=
  if bits < 2 ^ 63 then (bits : Int) else (bits : Int) - 2 ^ 64

/-- 64-bit two's-complement negation (`index = -index`, line 246): every
value negates exactly, except the minimal one which is its own negation. -/
def negInt64 (x : Int) : Int :=
  if x = -(2 ^ 63) then x else -x

/-- The digit loop of lines 233-242: iterate over the runes of the segment,
skipping a leading `-`, rejecting any other non-digit with `ErrInvalidPath`,
and accumulating `index*10 + int(c-'0')` in a 64-bit `int`. -/
def scanSegmentDigits : List Char → Nat → Nat → Except CutError Nat
  | [], _, index => .ok index
  | c :: rest, i, index =>
    if i = 0 ∧ c = '-' then scanSegmentDigits rest (i + 1) index
    else if c < '0' ∨ '9' < c then .error .invalidPath
    else scanSegmentDigits rest (i + 1) (wrap64 (index * 10 + (c.toNat - '0'.toNat)))

/-- Lines 232-256 of `navigateToValue`, the array-index computation for one
segment against an array of length `len`: run the digit loop, read
`currentSegment[0]` (a panic on an empty segment), apply the sign, convert a
negative index by adding the length, and bounds-check. -/
def arrayIndexResolve (len : Nat) (currentSegment : String) : Except CutError Nat :=
  match scanSegmentDigits currentSegment.data 0 0 with
  | .error e => .error e
  | .ok bits =>
    match currentSegment.data with
    | [] => .error .panicIndexOutOfRange
    | c0 :: _ =>
      let parsed : Int := toSigned64 bits
      let signed : Int := if c0 = '-' then negInt64 parsed else parsed
      let index : Int := if signed < 0 then (len : Int) + signed else signed
      if index < 0 ∨ (len : Int) ≤ index then .error .pathNotFound
      else .ok index.toNat

/-- `navigateToValue` (lines 215-263): walk the path segments, looking keys
up in objects and resolving segments as (possibly negative) indices on
arrays; descending into anything else, or a missing key / out-of-range
index, is `ErrPathNotFound`. -/
def navigateToValue : JValue → List String → Except CutError JValue
  | data, [] => .ok data
  | data, currentSegment :: remaining =>
    match data with
    | .obj v =>
      match v.lookup currentSegment with
      | some val => navigateToValue val remaining
      | none => .error .pathNotFound
    | .arr v =>
      match arrayIndexResolve v.length currentSegment with
      | .error e => .error e
      | .ok index => navigateToValue (v.getD index) remaining
    | _ => .error .pathNotFound

/-! ### Deep equality (`valueEquals`, line 331, i.e. `reflect.DeepEqual`)

`reflect.DeepEqual` on unmarshalled JSON values: scalars by value (with a
type check), slices by length and position-wise recursion, maps by length and
key-wise recursion; values of different dynamic types are never equal. -/

mutual
/-- `valueEquals(a, b)`, i.e. `reflect.DeepEqual` on parsed JSON values. -/
def valueEquals : JValue → JValue → Bool
  | .null, .null => true
  | .bool a, .bool b => a == b
  | .num a, .num b => decide (a = b)
  | .str a, .str b => a == b
  | .arr a, .arr b => arrEquals a b
  | .obj a, .obj b => (a.length == b.length) && objIncl a b
  | _, _ => false

/-- `reflect.DeepEqual` on slices: same length, equal element by element. -/
def arrEquals : JArray → JArray → Bool
  | .nil, .nil => true
  | .cons x xs, .cons y ys => valueEquals x y && arrEquals xs ys
  | _, _ => false

/-- `reflect.DeepEqual` map traversal: every entry of the first map is
present in the second with a deeply-equal value. -/
def objIncl : JObject → JObject → Bool
  | .nil, _ => true
  | .cons k v rest, b =>
    (match b.lookup k with
     | some w => valueEquals v w
     | none => false) && objIncl rest b
end

/-! ### Result assembly (`buildResultStructure`, lines 266-303) -/

/-- `isNumeric` (lines 306-328): non-empty, optional leading `-` (alone not
allowed), all remaining characters decimal digits. -/
def allDigits : List Char → Bool
  | [] => true
  | c :: rest => !(c < '0' ∨ '9' < c) && allDigits rest

/-- `isNumeric(s)` from lines 306-328. -/
def isNumeric (s : String) : Bool :=
  match s.data with
  | [] => false
  | c :: rest =>
    if c = '-' then
      match rest with
      | [] => false
      | _ => allDigits rest
    else allDigits (c :: rest)

/-- `buildResultStructure(result, pathSegments, value)`: walk the segments;
the final segment sets the value in the current map; a non-final segment
creates a missing intermediate node (an empty slice when the next segment
`isNumeric`, an empty map otherwise) and then descends only if the node at
the segment is a map — otherwise the loop `break`s, leaving the structure
built so far (lines 294-300).  In-place mutation of nested maps is rendered
as rebuilding the spine with `JObject.set`. -/
def buildResultStructure : JObject → List String → JValue → JObject
  | result, [], _ => result
  | result, segment :: rest, value =>
    match rest with
    | [] => result.set segment value
    | nextSegment :: _ =>
      match result.lookup segment with
      | some (JValue.obj inner) =>
        result.set segment (.obj (buildResultStructure inner rest value))
      | some _ => result
      | none =>
        if isNumeric nextSegment then result.set segment (.arr .nil)
        else result.set segment (.obj (buildResultStructure .nil rest value))

/-! ### Rules and rule application (lines 22-212) -/

/-- `RuleType` is a Go `int`; the three declared constants are 0, 1, 2 and
any other value falls into the `default` branch of `applyRules`. -/
def KeepPath : Int := 0

/-- Rule 2 discriminant. -/
def KeepParentIfValueMatches : Int := 1

/-- Rule 3 discriminant. -/
def KeepArrayElementsIfChildValueMatches : Int := 2

/-- The `Rule` struct (lines 23-28).  `typ` is the Go field `Type`. -/
structure Rule : Type where
  typ : Int
  path : String
  value : JValue
  childPath : String

/-- `NewKeepPathRule` (line 43): type `KeepPath`, the given path, zero
values elsewhere. -/
def NewKeepPathRule (path : String) : Rule :=
  ⟨KeepPath, path, .null, ""⟩

/-- `NewKeepParentIfValueMatchesRule` (line 51). -/
def NewKeepParentIfValueMatchesRule (path : String) (value : JValue) : Rule :=
  ⟨KeepParentIfValueMatches, path, value, ""⟩

/-- `NewKeepArrayElementsIfChildValueMatchesRule` (line 60). -/
def NewKeepArrayElementsIfChildValueMatchesRule
    (arrayPath : String) (childPath : String) (value : JValue) : Rule :=
  ⟨KeepArrayElementsIfChildValueMatches, arrayPath, value, childPath⟩

/-- `applyKeepPathRule` (lines 126-140). -/
def applyKeepPathRule (data : JValue) (path : String) (result : JObject) :
    Except CutError JObject :=
  let pathSegments := splitPath path
  match navigateToValue data pathSegments with
  | .error e => .error e
  | .ok value => .ok (buildResultStructure result pathSegments value)

/-- `applyKeepParentIfValueMatchesRule` (lines 143-174). -/
def applyKeepParentIfValueMatchesRule (data : JValue) (path : String)
    (expectedValue : JValue) (result : JObject) : Except CutError JObject :=
  let pathSegments := splitPath path
  match navigateToValue data pathSegments with
  | .error e => .error e
  | .ok value =>
    if valueEquals value expectedValue = false then .ok result
    else if 1 < pathSegments.length then
      let parentPathSegments := pathSegments.dropLast
      match navigateToValue data parentPathSegments with
      | .error e => .error e
      | .ok parentValue =>
        .ok (buildResultStructure result parentPathSegments parentValue)
    else .ok (buildResultStructure result pathSegments value)

/-- The filter predicate of lines 198-204: the child path resolves on the
element and the reached value deep-equals the expected value. -/
def elementMatches (childPathSegments : List String) (expectedValue : JValue)
    (element : JValue) : Bool :=
  match navigateToValue element childPathSegments with
  | .ok childValue => valueEquals childValue expectedValue
  | .error _ => false

/-- The append loop of lines 197-204 building `filteredArray`. -/
def filterMatches (childPathSegments : List String) (expectedValue : JValue) :
    JArray → JArray
  | .nil => .nil
  | .cons x xs =>
    if elementMatches childPathSegments expectedValue x then
      .cons x (filterMatches childPathSegments expectedValue xs)
    else filterMatches childPathSegments expectedValue xs

/-- `applyKeepArrayElementsIfChildValueMatchesRule` (lines 177-212). -/
def applyKeepArrayElementsIfChildValueMatchesRule (data : JValue)
    (arrayPath : String) (childPath : String) (expectedValue : JValue)
    (result : JObject) : Except CutError JObject :=
  let arrayPathSegments := splitPath arrayPath
  match navigateToValue data arrayPathSegments with
  | .error e => .error e
  | .ok arrayValue =>
    match arrayValue with
    | .arr array =>
      let childPathSegments := splitPath childPath
      let filteredArray := filterMatches childPathSegments expectedValue array
      if 0 < filteredArray.length then
        .ok (buildResultStructure result arrayPathSegments (.arr filteredArray))
      else .ok result
    | _ => .error .notAnArray

/-- The body of one iteration of the `applyRules` loop (lines 100-119): the
`switch` over the rule type, with unrecognized types yielding
`ErrInvalidRule`. -/
def applyRule (data : JValue) (rule : Rule) (result : JObject) :
    Except CutError JObject :=
  if rule.typ = KeepPath then
    applyKeepPathRule data rule.path result
  else if rule.typ = KeepParentIfValueMatches then
    applyKeepParentIfValueMatchesRule data rule.path rule.value result
  else if rule.typ = KeepArrayElementsIfChildValueMatches then
    applyKeepArrayElementsIfChildValueMatchesRule data rule.path rule.childPath
      rule.value result
  else .error .invalidRule

/-- The `applyRules` loop (lines 97-123): each rule is applied to the shared
result; an error aborts unless it is exactly `ErrPathNotFound`, which leaves
the result untouched and moves on to the next rule. -/
def applyRulesGo (data : JValue) : List Rule → JObject → Except CutError JObject
  | [], result => .ok result
  | rule :: rest, result =>
    match applyRule data rule result with
    | .ok result2 => applyRulesGo data rest result2
    | .error e =>
      if e = .pathNotFound then applyRulesGo data rest result else .error e

/-- `applyRules(data, rules)` (line 97): run the loop on a fresh empty map. -/
def applyRules (data : JValue) (rules : List Rule) : Except CutError JObject :=
  applyRulesGo data rules .nil

/-- `CutWithRules` (lines 70-94) after `json.Unmarshal` and before
`json.Marshal`: apply the rules to the parsed document; the serialized
output is the object-rooted result tree, an error yields no output. -/
def cutWithRules (data : JValue) (rules : List Rule) : Except CutError JValue :=
  match applyRules data rules with
  | .ok result => .ok (.obj result)
  | .error e => .error e

/-! ### Specification-level helpers for stating the claims -/

/-- One step of decimal-digit accumulation, the mathematical (non-wrapping)
version of line 241. -/
def digitStep (acc : Nat) (c : Char) : Nat :=
  acc * 10 + (c.toNat - '0'.toNat)

/-- The number denoted by a list of decimal digit characters. -/
def decDigitsVal (ds : List Char) : Nat :=
  ds.foldl digitStep 0

/-- A character of the segment (listed from position `i`) that the digit
loop of lines 234-242 rejects: any character that is not a decimal digit,
other than a `-` at position 0. -/
def hasBadCharFrom : List Char → Nat → Bool
  | [], _ => false
  | c :: rest, i =>
    (if i = 0 ∧ c = '-' then false else decide (c < '0' ∨ '9' < c)) ||
      hasBadCharFrom rest (i + 1)

/-- Modelled from the spec: the decimal-numeral reading performed by the
external JSON decoder (`encoding/json`, outside this repository) when a
number literal occurs in a document or in a rule-configuration value; §3 and
§4.2 require a numeral to denote its numeric value canonically, so that
differently written literals of the same number (such as `30` and `30.0`)
parse to the same `JValue.num`.  Optional sign, then digits, then an
optional fraction part. -/
def parseDecimalCore (cs : List Char) : Option Rat :=
  let intPart := cs.takeWhile (fun c => c ≠ '.')
  let rest := cs.dropWhile (fun c => c ≠ '.')
  if intPart = [] then none
  else if allDigits intPart = false then none
  else
    match rest with
    | [] => some (decDigitsVal intPart : Rat)
    | _ :: fracPart =>
      if fracPart = [] then none
      else if allDigits fracPart = false then none
      else some ((decDigitsVal intPart : Rat) +
        (decDigitsVal fracPart : Rat) / ((10 : Rat) ^ fracPart.length))

/-- Modelled from the spec: sign handling of the external decimal reader. -/
def parseDecimal (s : String) : Option Rat :=
  match s.data with
  | '-' :: rest => (parseDecimalCore rest).map (fun q => -q)
  | cs => parseDecimalCore cs

/-! ### Lemmas on navigation -/

/-- One navigation step followed by the remaining segments. -/
theorem navigateToValue_cons (d : JValue) (s : String) (rest : List String) :
    navigateToValue d (s :: rest) =
      match navigateToValue d [s] with
      | .ok u => navigateToValue u rest
      | .error e => .error e := by
  cases d with
  | obj o =>
    cases h : o.lookup s <;> simp [navigateToValue, h]
  | arr a =>
    cases h : arrayIndexResolve a.length s <;> simp [navigateToValue, h]
  | null => rfl
  | bool b => rfl
  | num q => rfl
  | str t => rfl

/-- Navigation along a concatenation of paths composes. -/
theorem navigateToValue_append (l₁ l₂ : List String) (d : JValue) :
    navigateToValue d (l₁ ++ l₂) =
      match navigateToValue d l₁ with
      | .ok u => navigateToValue u l₂
      | .error e => .error e := by
  induction l₁ generalizing d with
  | nil => simp [navigateToValue]
  | cons s r ih =>
    rw [List.cons_append, navigateToValue_cons d s (r ++ l₂),
      navigateToValue_cons d s r]
    cases navigateToValue d [s] with
    | ok u => simpa using ih u
    | error e => rfl

/-- A successful navigation succeeds on every prefix of the path. -/
theorem navigateToValue_prefix (l₁ l₂ : List String) (d v : JValue)
    (h : navigateToValue d (l₁ ++ l₂) = .ok v) :
    ∃ u, navigateToValue d l₁ = .ok u ∧ navigateToValue u l₂ = .ok v := by
  rw [navigateToValue_append] at h
  cases hu : navigateToValue d l₁ with
  | ok u =>
    rw [hu] at h
    exact ⟨u, rfl, h⟩
  | error e => rw [hu] at h; exact absurd h (by simp)

/-! ### Lemmas on the array-index scanner -/

/-- Digit accumulation never decreases the accumulator. -/
theorem le_foldl_digitStep (ds : List Char) (acc : Nat) :
    acc ≤ ds.foldl digitStep acc := by
  induction ds generalizing acc with
  | nil => exact Nat.le_refl acc
  | cons c rest ih =>
    refine Nat.le_trans ?_ (ih (digitStep acc c))
    simp only [digitStep]
    omega

/-- On an all-digit suffix whose accumulated value stays below `2 ^ 64`, the
scanner returns exactly the denoted number: no wrap-around occurs. -/
theorem scanSegmentDigits_digits (ds : List Char) (i acc : Nat)
    (hd : allDigits ds = true) (hlt : ds.foldl digitStep acc < 2 ^ 64) :
    scanSegmentDigits ds i acc = .ok (ds.foldl digitStep acc) := by
  induction ds generalizing i acc with
  | nil => rfl
  | cons c rest ih =>
    have hsplit := hd
    simp only [allDigits, Bool.and_eq_true, Bool.not_eq_true',
      decide_eq_false_iff_not] at hsplit
    obtain ⟨hc, hrest⟩ := hsplit
    have hcm : c ≠ '-' := by
      intro h
      exact hc (Or.inl (by rw [h]; decide))
    have hlt2 : rest.foldl digitStep (digitStep acc c) < 2 ^ 64 := by
      simpa using hlt
    have hw : wrap64 (acc * 10 + (c.toNat - '0'.toNat)) = digitStep acc c := by
      have hle : digitStep acc c ≤ rest.foldl digitStep (digitStep acc c) :=
        le_foldl_digitStep rest (digitStep acc c)
      have hsmall : digitStep acc c < 2 ^ 64 := lt_of_le_of_lt hle hlt2
      exact Nat.mod_eq_of_lt hsmall
    simp only [scanSegmentDigits]
    rw [if_neg (fun hh => hcm hh.2), if_neg hc, hw, List.foldl_cons]
    exact ih (i + 1) (digitStep acc c) hrest hlt2

/-- The scanner rejects a segment containing any character that is not a
digit, other than a leading minus, with `ErrInvalidPath`. -/
theorem scanSegmentDigits_badchar (cs : List Char) (i acc : Nat)
    (h : hasBadCharFrom cs i = true) :
    scanSegmentDigits cs i acc = .error .invalidPath := by
  induction cs generalizing i acc with
  | nil => simp [hasBadCharFrom] at h
  | cons c rest ih =>
    simp only [hasBadCharFrom, Bool.or_eq_true] at h
    by_cases hskip : i = 0 ∧ c = '-'
    · have hrest : hasBadCharFrom rest (i + 1) = true := by
        rcases h with h1 | h2
        · rw [if_pos hskip] at h1; exact absurd h1 (by simp)
        · exact h2
      simp only [scanSegmentDigits, if_pos hskip]
      exact ih (i + 1) acc hrest
    · rcases h with h1 | h2
      · rw [if_neg hskip] at h1
        have hb : c < '0' ∨ '9' < c := of_decide_eq_true h1
        simp only [scanSegmentDigits, if_neg hskip, if_pos hb]
      · by_cases hb : c < '0' ∨ '9' < c
        · simp only [scanSegmentDigits, if_neg hskip, if_pos hb]
        · simp only [scanSegmentDigits, if_neg hskip, if_neg hb]
          exact ih (i + 1) _ h2

/-- Reading a small number back from its bit pattern. -/
theorem toSigned64_small (m : Nat) (h : m < 2 ^ 63) : toSigned64 m = (m : Int) := by
  unfold toSigned64
  rw [if_pos h]

/-- 64-bit negation is exact negation on the bit patterns of small
non-negative numbers. -/
theorem negInt64_ofNat (m : Nat) : negInt64 (m : Int) = -(m : Int) := by
  have : (m : Int) ≠ -(2 ^ 63) := by omega
  simp [negInt64, this]

/-- Index resolution on a negative-index segment `-m` (`0 < m`, in `int64`
range): it addresses element `length - m` when `m ≤ length` and is
`ErrPathNotFound` otherwise. -/
theorem arrayIndexResolve_neg (len : Nat) (s : String)
    (c0 : Char) (ds : List Char) (m : Nat) (hs : s.data = c0 :: ds)
    (hc : c0 = '-') (hdig : allDigits ds = true) (hm : decDigitsVal ds = m)
    (hpos : 0 < m) (hlt : m < 2 ^ 63) :
    arrayIndexResolve len s =
      if m ≤ len then .ok (len - m) else .error .pathNotFound := by
  have hfold : ds.foldl digitStep 0 = m := hm
  have hscan : scanSegmentDigits (c0 :: ds) 0 0 = .ok m := by
    have hstep : scanSegmentDigits (c0 :: ds) 0 0 = scanSegmentDigits ds 1 0 := by
      subst hc; rfl
    rw [hstep, scanSegmentDigits_digits ds 1 0 hdig (by rw [hfold]; omega), hfold]
  simp only [arrayIndexResolve, hs, hscan]
  rw [if_pos hc, toSigned64_small m hlt, negInt64_ofNat m]
  have hneg : -(m : Int) < 0 := by omega
  rw [if_pos hneg]
  by_cases hcase : m ≤ len
  · have hnotout : ¬((len : Int) + -(m : Int) < 0 ∨
        (len : Int) ≤ (len : Int) + -(m : Int)) := by omega
    rw [if_neg hnotout, if_pos hcase]
    have htn : ((len : Int) + -(m : Int)).toNat = len - m := by omega
    rw [htn]
  · have hout : ((len : Int) + -(m : Int) < 0 ∨
        (len : Int) ≤ (len : Int) + -(m : Int)) := by omega
    rw [if_pos hout, if_neg hcase]

/-- Index resolution on a non-negative all-digit segment denoting `m` (in
`int64` range): it addresses element `m` when `m < length` and is
`ErrPathNotFound` otherwise. -/
theorem arrayIndexResolve_pos (len : Nat) (s : String) (m : Nat)
    (hne : s.data ≠ []) (hdig : allDigits s.data = true)
    (hm : decDigitsVal s.data = m) (hlt : m < 2 ^ 63) :
    arrayIndexResolve len s =
      if m < len then .ok m else .error .pathNotFound := by
  obtain ⟨c0, cs, hds⟩ : ∃ c0 cs, s.data = c0 :: cs := by
    cases hcase : s.data with
    | nil => exact absurd hcase hne
    | cons a b => exact ⟨a, b, rfl⟩
  have hc0 : ¬(c0 < '0' ∨ '9' < c0) := by
    have hh := hdig
    rw [hds] at hh
    simp only [allDigits, Bool.and_eq_true, Bool.not_eq_true',
      decide_eq_false_iff_not] at hh
    exact hh.1
  have hcm : c0 ≠ '-' := by
    intro h
    exact hc0 (Or.inl (by rw [h]; decide))
  have hfold : s.data.foldl digitStep 0 = m := hm
  have hscan : scanSegmentDigits s.data 0 0 = .ok m := by
    rw [scanSegmentDigits_digits s.data 0 0 hdig (by rw [hfold]; omega), hfold]
  rw [hds] at hscan
  simp only [arrayIndexResolve, hds, hscan]
  rw [if_neg hcm, toSigned64_small m hlt]
  have hnn : ¬((m : Int) < 0) := by omega
  rw [if_neg hnn]
  by_cases hcase : m < len
  · have hnotout : ¬((m : Int) < 0 ∨ (len : Int) ≤ (m : Int)) := by omega
    rw [if_neg hnotout, if_pos hcase]
    have htn : ((m : Int)).toNat = m := by omega
    rw [htn]
  · have hout : ((m : Int) < 0 ∨ (len : Int) ≤ (m : Int)) := by omega
    rw [if_pos hout, if_neg hcase]

/-- Index resolution aborts with `ErrInvalidPath` as soon as the segment
holds a rejected character. -/
theorem arrayIndexResolve_badchar (len : Nat) (s : String)
    (h : hasBadCharFrom s.data 0 = true) :
    arrayIndexResolve len s = .error .invalidPath := by
  have hscan := scanSegmentDigits_badchar s.data 0 0 h
  simp [arrayIndexResolve, hscan]

/-- Navigation into an array aborts with `ErrInvalidPath` as soon as the
segment holds a rejected character. -/
theorem navigateToValue_arr_badchar (xs : JArray) (rest : List String)
    (s : String) (h : hasBadCharFrom s.data 0 = true) :
    navigateToValue (.arr xs) (s :: rest) = .error .invalidPath := by
  simp [navigateToValue, arrayIndexResolve_badchar xs.length s h]

/-! ### Lemmas on path splitting and result assembly -/

/-- Spine induction for slices (recursing only along the slice, not into the
element values). -/
theorem arrSpineInd {motive : JArray → Prop} (a : JArray)
    (nilCase : motive .nil)
    (consCase : ∀ x rest, motive rest → motive (.cons x rest)) : motive a :=
  match a with
  | .nil => nilCase
  | .cons x rest => consCase x rest (arrSpineInd rest nilCase consCase)

/-- Spine induction for maps (recursing only along the entry list, not into
the entry values). -/
theorem objSpineInd {motive : JObject → Prop} (o : JObject)
    (nilCase : motive .nil)
    (consCase : ∀ k v rest, motive rest → motive (.cons k v rest)) : motive o :=
  match o with
  | .nil => nilCase
  | .cons k v rest => consCase k v rest (objSpineInd rest nilCase consCase)

/-- `strings.Split` never yields an empty list. -/
theorem splitPathAux_ne_nil (cs acc : List Char) : splitPathAux cs acc ≠ [] := by
  induction cs generalizing acc with
  | nil => simp [splitPathAux]
  | cons c rest ih =>
    simp only [splitPathAux]
    split
    · simp
    · exact ih _

/-- A dotted path always has at least one segment. -/
theorem splitPath_ne_nil (p : String) : splitPath p ≠ [] :=
  splitPathAux_ne_nil p.data []

/-- Looking up the key just set. -/
theorem lookup_cons_self (s : String) (x : JValue) (o : JObject) :
    (JObject.cons s x o).lookup s = some x := by
  simp [JObject.lookup]

/-- Navigation into an object with a present key steps to its value. -/
theorem navigateToValue_obj_found (o : JObject) (s : String)
    (rest : List String) (u : JValue) (h : o.lookup s = some u) :
    navigateToValue (.obj o) (s :: rest) = navigateToValue u rest := by
  simp [navigateToValue, h]

/-- A value assembled into an empty result at a path whose later segments
are all non-numeric is found again by navigating that path. -/
theorem navigateToValue_build (segs : List String) (v : JValue)
    (hne : segs ≠ []) (htail : ∀ s ∈ segs.tail, isNumeric s = false) :
    navigateToValue (.obj (buildResultStructure .nil segs v)) segs = .ok v := by
  induction segs with
  | nil => exact absurd rfl hne
  | cons s rest ih =>
    cases rest with
    | nil =>
      rw [show buildResultStructure .nil [s] v = .cons s v .nil from rfl,
        navigateToValue_obj_found _ _ _ _ (lookup_cons_self s v .nil)]
      rfl
    | cons r0 rr =>
      have hr0 : isNumeric r0 = false := htail r0 (List.mem_cons_self r0 rr)
      have htail2 : ∀ x ∈ (r0 :: rr).tail, isNumeric x = false := fun x hx =>
        htail x (List.mem_cons_of_mem r0 hx)
      have ihh := ih (by simp) htail2
      have hbuild : buildResultStructure .nil (s :: r0 :: rr) v =
          JObject.cons s (.obj (buildResultStructure .nil (r0 :: rr) v)) .nil := by
        rw [buildResultStructure.eq_def]
        simp [JObject.lookup, hr0, JObject.set]
      rw [hbuild, navigateToValue_obj_found _ _ _ _ (lookup_cons_self _ _ _)]
      exact ihh

/-! ### Preservation of well-formedness under navigation -/

/-- A value found in a well-formed map is well-formed. -/
theorem wfObj_lookup (o : JObject) (k : String) (v : JValue)
    (hwf : wfObj o = true) (hl : o.lookup k = some v) : wfValue v = true := by
  induction o using objSpineInd with
  | nilCase => simp [JObject.lookup] at hl
  | consCase k0 v0 rest ih =>
    have hs : wfValue v0 = true ∧ wfObj rest = true := by
      simpa [wfObj, Bool.and_eq_true] using hwf
    by_cases he : k0 = k
    · have : v0 = v := by simpa [JObject.lookup, he] using hl
      rw [← this]; exact hs.1
    · simp only [JObject.lookup, if_neg he] at hl
      exact ih hs.2 hl

/-- An element of a well-formed slice is well-formed. -/
theorem wfArr_getD (a : JArray) (i : Nat) (hwf : wfArr a = true) :
    wfValue (a.getD i) = true := by
  induction a using arrSpineInd generalizing i with
  | nilCase => cases i <;> rfl
  | consCase x xs ih =>
    have hs : wfValue x = true ∧ wfArr xs = true := by
      simpa [wfArr, Bool.and_eq_true] using hwf
    cases i with
    | zero => exact hs.1
    | succ n => exact ih n hs.2

/-- One navigation step from a well-formed value lands on a well-formed
value. -/
theorem wfValue_navigate_one (d u : JValue) (s : String)
    (hwf : wfValue d = true) (h : navigateToValue d [s] = .ok u) :
    wfValue u = true := by
  cases d with
  | obj o =>
    cases hl : o.lookup s with
    | some val =>
      have hval : val = u := by simpa [navigateToValue, hl] using h
      rw [← hval]
      have hs : keysNodup o = true ∧ wfObj o = true := by
        simpa [wfValue, Bool.and_eq_true] using hwf
      exact wfObj_lookup o s val hs.2 hl
    | none => simp [navigateToValue, hl] at h
  | arr a =>
    cases hr : arrayIndexResolve a.length s with
    | ok i =>
      have hval : a.getD i = u := by simpa [navigateToValue, hr] using h
      rw [← hval]
      exact wfArr_getD a i (by simpa [wfValue] using hwf)
    | error e => simp [navigateToValue, hr] at h
  | null => simp [navigateToValue] at h
  | bool b => simp [navigateToValue] at h
  | num q => simp [navigateToValue] at h
  | str t => simp [navigateToValue] at h

/-- Any value reached by navigation from a well-formed document is
well-formed. -/
theorem wfValue_navigate (segs : List String) (d v : JValue)
    (hwf : wfValue d = true) (h : navigateToValue d segs = .ok v) :
    wfValue v = true := by
  induction segs generalizing d with
  | nil =>
    have : d = v := by simpa [navigateToValue] using h
    rw [← this]; exact hwf
  | cons s rest ih =>
    rw [navigateToValue_cons] at h
    cases hu : navigateToValue d [s] with
    | ok u =>
      rw [hu] at h
      exact ih u (wfValue_navigate_one d u s hwf hu) h
    | error e => rw [hu] at h; simp at h

/-! ### Reflexivity of deep equality on well-formed values -/

/-- A map entry always has a binding under its key. -/
theorem lookup_isSome_of_mem (o : JObject) (kv : String × JValue)
    (h : kv ∈ o.toList) : (o.lookup kv.1).isSome = true := by
  induction o using objSpineInd with
  | nilCase => simp [JObject.toList] at h
  | consCase k v rest ih =>
    rcases List.mem_cons.mp (by simpa [JObject.toList] using h) with he | ht
    · subst he; simp [JObject.lookup]
    · by_cases hk : k = kv.1
      · simp [JObject.lookup, hk]
      · simp only [JObject.lookup, if_neg hk]
        exact ih ht

/-- In a map with pairwise-distinct keys, looking an entry up by its key
returns exactly its value. -/
theorem lookup_of_mem_nodup (o : JObject) (hnd : keysNodup o = true)
    (kv : String × JValue) (h : kv ∈ o.toList) : o.lookup kv.1 = some kv.2 := by
  induction o using objSpineInd with
  | nilCase => simp [JObject.toList] at h
  | consCase k v rest ih =>
    have hparts : (rest.lookup k).isSome = false ∧ keysNodup rest = true := by
      simpa [keysNodup, Bool.and_eq_true, Bool.not_eq_true'] using hnd
    rcases List.mem_cons.mp (by simpa [JObject.toList] using h) with he | ht
    · subst he; simp [JObject.lookup]
    · by_cases hk : k = kv.1
      · exfalso
        have hsome := lookup_isSome_of_mem rest kv ht
        have h1 := hparts.1
        rw [hk] at h1
        rw [hsome] at h1
        exact absurd h1 (by simp)
      · simp only [JObject.lookup, if_neg hk]
        exact ih hparts.2 ht

/-- `objIncl` holds whenever every entry of the first map is found in the
second with a deeply-equal value. -/
theorem objIncl_sub (a o : JObject)
    (hmem : ∀ kv ∈ a.toList,
      o.lookup kv.1 = some kv.2 ∧ valueEquals kv.2 kv.2 = true) :
    objIncl a o = true := by
  induction a using objSpineInd with
  | nilCase => rfl
  | consCase k v rest ih =>
    have hh := hmem (k, v) (List.mem_cons_self _ _)
    simp only [objIncl, Bool.and_eq_true]
    constructor
    · rw [hh.1]
      exact hh.2
    · exact ih (fun kv hkv => hmem kv (List.mem_cons_of_mem (k, v) hkv))

mutual
/-- Deep equality is reflexive on well-formed values (as `reflect.DeepEqual`
is on Go values without duplicate map keys, which cannot exist). -/
theorem valueEquals_refl : (v : JValue) → wfValue v = true → valueEquals v v = true
  | .null, _ => rfl
  | .bool b, _ => by simp [valueEquals]
  | .num q, _ => by simp [valueEquals]
  | .str s, _ => by simp [valueEquals]
  | .arr a, h => arrEquals_refl a h
  | .obj o, h => by
    have hh : (keysNodup o && wfObj o) = true := h
    have h1 : keysNodup o = true ∧ wfObj o = true := by simpa using hh
    have hv : ∀ kv ∈ o.toList, valueEquals kv.2 kv.2 = true :=
      objEntries_refl o h1.2
    have hincl : objIncl o o = true :=
      objIncl_sub o o (fun kv hkv => ⟨lookup_of_mem_nodup o h1.1 kv hkv, hv kv hkv⟩)
    simp [valueEquals, hincl]

/-- `arrEquals` is reflexive on well-formed slices. -/
theorem arrEquals_refl : (a : JArray) → wfArr a = true → arrEquals a a = true
  | .nil, _ => rfl
  | .cons x xs, h => by
    have hh : (wfValue x && wfArr xs) = true := h
    have h1 : wfValue x = true ∧ wfArr xs = true := by simpa using hh
    have e1 := valueEquals_refl x h1.1
    have e2 := arrEquals_refl xs h1.2
    simp [arrEquals, e1, e2]

/-- Every entry value of a well-formed map is deeply equal to itself. -/
theorem objEntries_refl : (o : JObject) → wfObj o = true →
    ∀ kv ∈ o.toList, valueEquals kv.2 kv.2 = true
  | .nil, _ => by intro kv hkv; simp [JObject.toList] at hkv
  | .cons k v rest, h => by
    intro kv hkv
    have hh : (wfValue v && wfObj rest) = true := h
    have h1 : wfValue v = true ∧ wfObj rest = true := by simpa using hh
    rcases List.mem_cons.mp (by simpa [JObject.toList] using hkv) with he | ht
    · rw [he]; exact valueEquals_refl v h1.1
    · exact objEntries_refl rest h1.2 kv ht
end

/-! ### Lemmas on rule application -/

/-- The rule loop processes a concatenation of rule lists in sequence,
aborting at the first hard error. -/
theorem applyRulesGo_append (data : JValue) (l₁ l₂ : List Rule) (result : JObject) :
    applyRulesGo data (l₁ ++ l₂) result =
      match applyRulesGo data l₁ result with
      | .ok r => applyRulesGo data l₂ r
      | .error e => .error e := by
  induction l₁ generalizing result with
  | nil => simp [applyRulesGo]
  | cons r rest ih =>
    simp only [List.cons_append, applyRulesGo]
    cases applyRule data r result with
    | ok r2 => exact ih r2
    | error e =>
      dsimp only
      by_cases he : e = CutError.pathNotFound
      · rw [if_pos he, if_pos he]
        exact ih result
      · rw [if_neg he, if_neg he]

/-- The filtered slice, as a list: Go's append loop is `List.filter`. -/
theorem filterMatches_toList (cs : List String) (ev : JValue) (a : JArray) :
    (filterMatches cs ev a).toList = a.toList.filter (elementMatches cs ev) := by
  induction a using arrSpineInd with
  | nilCase => rfl
  | consCase x xs ih =>
    by_cases hm : elementMatches cs ev x = true
    · simp [filterMatches, hm, JArray.toList, List.filter_cons, ih]
    · simp [filterMatches, hm, JArray.toList, List.filter_cons, ih]

/-- Slice length agrees with list length. -/
theorem arrLength_toList (a : JArray) : a.length = a.toList.length := by
  induction a using arrSpineInd with
  | nilCase => rfl
  | consCase x xs ih => simp [JArray.length, JArray.toList, ih]

/-- What it means for an element to pass the filter of rule 3. -/
theorem elementMatches_iff (cs : List String) (ev el : JValue) :
    elementMatches cs ev el = true ↔
      ∃ cv, navigateToValue el cs = .ok cv ∧ valueEquals cv ev = true := by
  unfold elementMatches
  cases h : navigateToValue el cs with
  | ok cv => simp
  | error e => simp

/-! ### Characterization of deep equality -/

/-- A successful lookup comes from an entry of the map. -/
theorem mem_of_lookup (o : JObject) (k : String) (v : JValue)
    (h : o.lookup k = some v) : (k, v) ∈ o.toList := by
  induction o using objSpineInd with
  | nilCase => simp [JObject.lookup] at h
  | consCase k0 v0 rest ih =>
    by_cases he : k0 = k
    · have hv : v0 = v := by simpa [JObject.lookup, he] using h
      subst he; subst hv
      exact List.mem_cons_self _ _
    · simp only [JObject.lookup, if_neg he] at h
      exact List.mem_cons_of_mem _ (ih h)

/-- A key has a binding exactly when it occurs among the entry keys. -/
theorem lookup_isSome_iff_mem_keys (o : JObject) (k : String) :
    (o.lookup k).isSome = true ↔ k ∈ o.toList.map Prod.fst := by
  constructor
  · intro h
    obtain ⟨v, hv⟩ := Option.isSome_iff_exists.mp h
    exact List.mem_map.mpr ⟨(k, v), mem_of_lookup o k v hv, rfl⟩
  · intro h
    obtain ⟨kv, hkv, hk⟩ := List.mem_map.mp h
    rw [← hk]
    exact lookup_isSome_of_mem o kv hkv

/-- Map length agrees with the length of the entry list. -/
theorem objLength_toList (o : JObject) : o.length = o.toList.length := by
  induction o using objSpineInd with
  | nilCase => rfl
  | consCase k v rest ih => simp [JObject.length, JObject.toList, ih]

/-- `keysNodup` means the entry keys are pairwise distinct. -/
theorem keysNodup_nodup (o : JObject) (h : keysNodup o = true) :
    (o.toList.map Prod.fst).Nodup := by
  induction o using objSpineInd with
  | nilCase => simp [JObject.toList]
  | consCase k v rest ih =>
    have hparts : (rest.lookup k).isSome = false ∧ keysNodup rest = true := by
      simpa [keysNodup, Bool.and_eq_true, Bool.not_eq_true'] using h
    have hnotmem : k ∉ rest.toList.map Prod.fst := by
      intro hmem
      have := (lookup_isSome_iff_mem_keys rest k).mpr hmem
      rw [hparts.1] at this
      exact absurd this (by simp)
    rw [show (JObject.cons k v rest).toList = (k, v) :: rest.toList from rfl,
      List.map_cons]
    exact List.nodup_cons.mpr ⟨hnotmem, ih hparts.2⟩

/-- `objIncl` holds exactly when every entry of the first map is matched by
a deeply-equal binding in the second. -/
theorem objIncl_iff (a b : JObject) :
    objIncl a b = true ↔
      ∀ kv ∈ a.toList, ∃ w, b.lookup kv.1 = some w ∧ valueEquals kv.2 w = true := by
  induction a using objSpineInd with
  | nilCase => simp [objIncl, JObject.toList]
  | consCase k v rest ih =>
    simp only [objIncl, Bool.and_eq_true, ih]
    constructor
    · rintro ⟨h1, h2⟩ kv hkv
      rcases List.mem_cons.mp (by simpa [JObject.toList] using hkv) with he | ht
      · subst he
        cases hl : b.lookup k with
        | some w =>
          rw [hl] at h1
          exact ⟨w, rfl, h1⟩
        | none => rw [hl] at h1; exact absurd h1 (by simp)
      · exact h2 kv ht
    · intro h
      constructor
      · obtain ⟨w, hw, he⟩ := h (k, v) (List.mem_cons_self _ _)
        rw [hw]
        exact he
      · exact fun kv hkv => h kv (List.mem_cons_of_mem _ hkv)

/-- `reflect.DeepEqual` on slices: same length and position-wise deeply
equal elements. -/
theorem arrEquals_iff (a b : JArray) :
    arrEquals a b = true ↔
      (a.length = b.length ∧
        ∀ i, i < a.length → valueEquals (a.getD i) (b.getD i) = true) := by
  induction a using arrSpineInd generalizing b with
  | nilCase =>
    cases b with
    | nil => simp [arrEquals, JArray.length]
    | cons y ys => simp [arrEquals, JArray.length]
  | consCase x xs ih =>
    cases b with
    | nil => simp [arrEquals, JArray.length]
    | cons y ys =>
      simp only [arrEquals, Bool.and_eq_true, ih ys, JArray.length]
      constructor
      · rintro ⟨h0, hlen, hrest⟩
        refine ⟨by omega, fun i hi => ?_⟩
        cases i with
        | zero => exact h0
        | succ n => exact hrest n (by omega)
      · rintro ⟨hlen, hall⟩
        exact ⟨hall 0 (by omega), by omega,
          fun i hi => hall (i + 1) (by omega)⟩

/-- `reflect.DeepEqual` on maps without duplicate keys: same key set and
deeply-equal values key by key. -/
theorem valueEquals_obj_iff (a b : JObject)
    (hna : keysNodup a = true) (hnb : keysNodup b = true) :
    valueEquals (.obj a) (.obj b) = true ↔
      ((∀ k, (a.lookup k).isSome = true ↔ (b.lookup k).isSome = true) ∧
       (∀ k v w, a.lookup k = some v → b.lookup k = some w →
         valueEquals v w = true)) := by
  have hsub : ∀ k, (a.lookup k).isSome = true → objIncl a b = true →
      (b.lookup k).isSome = true := by
    intro k hk hincl
    obtain ⟨v, hv⟩ := Option.isSome_iff_exists.mp hk
    obtain ⟨w, hw, _⟩ := (objIncl_iff a b).mp hincl (k, v) (mem_of_lookup a k v hv)
    simp [hw]
  constructor
  · intro h
    have hparts : a.length = b.length ∧ objIncl a b = true := by
      simpa [valueEquals, Bool.and_eq_true] using h
    have hkeysub : a.toList.map Prod.fst ⊆ b.toList.map Prod.fst := by
      intro k hk
      exact (lookup_isSome_iff_mem_keys b k).mp
        (hsub k ((lookup_isSome_iff_mem_keys a k).mpr hk) hparts.2)
    have hperm : List.Perm (a.toList.map Prod.fst) (b.toList.map Prod.fst) := by
      refine (List.subperm_of_subset (keysNodup_nodup a hna) hkeysub).perm_of_length_le ?_
      have h1 := objLength_toList a
      have h2 := objLength_toList b
      simp only [List.length_map]
      omega
    refine ⟨fun k => ⟨fun hk => hsub k hk hparts.2, fun hk => ?_⟩, ?_⟩
    · rw [lookup_isSome_iff_mem_keys] at hk ⊢
      exact hperm.mem_iff.mpr hk
    · intro k v w hv hw
      obtain ⟨w2, hw2, he⟩ := (objIncl_iff a b).mp hparts.2 (k, v) (mem_of_lookup a k v hv)
      have : w2 = w := by rw [hw] at hw2; exact (Option.some.inj hw2).symm
      rw [← this]
      exact he
  · rintro ⟨hkeys, hpt⟩
    have hkeysubA : a.toList.map Prod.fst ⊆ b.toList.map Prod.fst := by
      intro k hk
      rw [← lookup_isSome_iff_mem_keys] at hk ⊢
      exact (hkeys k).mp hk
    have hkeysubB : b.toList.map Prod.fst ⊆ a.toList.map Prod.fst := by
      intro k hk
      rw [← lookup_isSome_iff_mem_keys] at hk ⊢
      exact (hkeys k).mpr hk
    have hlen : a.length = b.length := by
      have h1 := (List.subperm_of_subset (keysNodup_nodup a hna) hkeysubA).length_le
      have h2 := (List.subperm_of_subset (keysNodup_nodup b hnb) hkeysubB).length_le
      have h3 := objLength_toList a
      have h4 := objLength_toList b
      simp only [List.length_map] at h1 h2
      omega
    have hincl : objIncl a b = true := by
      rw [objIncl_iff]
      intro kv hkv
      have hv := lookup_of_mem_nodup a hna kv hkv
      have hk : (b.lookup kv.1).isSome = true :=
        (hkeys kv.1).mp (by simp [hv])
      obtain ⟨w, hw⟩ := Option.isSome_iff_exists.mp hk
      exact ⟨w, hw, hpt kv.1 kv.2 w hv hw⟩
    simp [valueEquals, Bool.and_eq_true, hlen, hincl]

/-! ### The claims -/

/-- Helper for C4: the rule loop never returns `ErrPathNotFound`, because
exactly that error is swallowed at every iteration. -/
theorem applyRulesGo_ne_pathNotFound (data : JValue) (rules : List Rule)
    (result : JObject) :
    applyRulesGo data rules result ≠ .error .pathNotFound := by
  induction rules generalizing result with
  | nil => simp [applyRulesGo]
  | cons r rest ih =>
    simp only [applyRulesGo]
    cases applyRule data r result with
    | ok r2 => exact ih r2
    | error e =>
      dsimp only
      by_cases he : e = CutError.pathNotFound
      · rw [if_pos he]; exact ih result
      · rw [if_neg he]
        intro hcontra
        exact he (Except.error.inj hcontra)

/-- C3: the navigation function is partial at the public interface: on an
array value, an empty path segment (e.g. from a trailing dot as in
`orders.`) passes the digit-scan loop, and the following read of the
segment byte `currentSegment[0]` is out of bounds, so a Go run panics
rather than returning `ErrInvalidPath` or `ErrPathNotFound`; in this total
embedding the guarded byte access hits its dedicated error branch
`panicIndexOutOfRange`, which is neither of those errors. -/
theorem claim_C3_empty_segment_panic :
    (∀ (xs : JArray) (rest : List String),
      navigateToValue (.arr xs) ("" :: rest) = .error .panicIndexOutOfRange) ∧
    splitPath "orders." = ["orders", ""] ∧
    cutWithRules (.obj (.cons "orders" (.arr (.cons (.num 1) .nil)) .nil))
      [NewKeepPathRule "orders."] = .error .panicIndexOutOfRange ∧
    CutError.panicIndexOutOfRange ≠ CutError.invalidPath ∧
    CutError.panicIndexOutOfRange ≠ CutError.pathNotFound :=
  ⟨fun xs rest => rfl, rfl, rfl, by decide, by decide⟩

/-- C3 witness: the panic branch reached on a concrete one-element array. -/
theorem claim_C3_witness :
    navigateToValue (.arr (.cons (.num 1) .nil)) ("" :: []) =
      .error .panicIndexOutOfRange :=
  claim_C3_empty_segment_panic.1 (.cons (.num 1) .nil) []

/-- C7: on an array of length N, a genuinely negative index segment `-m`
addresses element `N - m` (so `-1` addresses element `N - 1`), and a
non-negative index segment `m` addresses element `m`; an index outside
`[0, N)` after this normalization yields `ErrPathNotFound` (indices are
taken within `int64` range, as the Go scanner computes in a 64-bit
`int`). -/
theorem claim_C7_array_index_semantics :
    (∀ (xs : JArray) (rest : List String) (s : String) (ds : List Char) (m : Nat),
      s.data = '-' :: ds → allDigits ds = true → decDigitsVal ds = m →
      0 < m → m < 2 ^ 63 →
      navigateToValue (.arr xs) (s :: rest) =
        if m ≤ xs.length then navigateToValue (xs.getD (xs.length - m)) rest
        else .error .pathNotFound) ∧
    (∀ (xs : JArray) (rest : List String) (s : String) (m : Nat),
      s.data ≠ [] → allDigits s.data = true → decDigitsVal s.data = m →
      m < 2 ^ 63 →
      navigateToValue (.arr xs) (s :: rest) =
        if m < xs.length then navigateToValue (xs.getD m) rest
        else .error .pathNotFound) := by
  constructor
  · intro xs rest s ds m hs hdig hm hpos hlt
    have hr := arrayIndexResolve_neg xs.length s '-' ds m hs rfl hdig hm hpos hlt
    by_cases hcase : m ≤ xs.length
    · rw [if_pos hcase] at hr
      simp only [navigateToValue, hr, if_pos hcase]
    · rw [if_neg hcase] at hr
      simp only [navigateToValue, hr, if_neg hcase]
  · intro xs rest s m hne hdig hm hlt
    have hr := arrayIndexResolve_pos xs.length s m hne hdig hm hlt
    by_cases hcase : m < xs.length
    · rw [if_pos hcase] at hr
      simp only [navigateToValue, hr, if_pos hcase]
    · rw [if_neg hcase] at hr
      simp only [navigateToValue, hr, if_neg hcase]

/-- C7 witness: on the two-element array `[10, 20]`, segment `-1` addresses
element `2 - 1` and segment `5` is out of range. -/
theorem claim_C7_witness :
    ("-1".data = '-' :: ['1'] ∧ allDigits ['1'] = true ∧ decDigitsVal ['1'] = 1 ∧
      navigateToValue (.arr (.cons (.num 10) (.cons (.num 20) .nil))) ["-1"] =
        if 1 ≤ (JArray.cons (JValue.num 10) (.cons (.num 20) .nil)).length then
          navigateToValue
            ((JArray.cons (JValue.num 10) (.cons (.num 20) .nil)).getD
              ((JArray.cons (JValue.num 10) (.cons (.num 20) .nil)).length - 1)) []
        else .error .pathNotFound) ∧
    ("5".data ≠ [] ∧ allDigits "5".data = true ∧ decDigitsVal "5".data = 5 ∧
      navigateToValue (.arr (.cons (.num 10) (.cons (.num 20) .nil))) ["5"] =
        if 5 < (JArray.cons (JValue.num 10) (.cons (.num 20) .nil)).length then
          navigateToValue ((JArray.cons (JValue.num 10) (.cons (.num 20) .nil)).getD 5) []
        else .error .pathNotFound) :=
  ⟨⟨rfl, rfl, rfl,
    claim_C7_array_index_semantics.1 _ [] "-1" ['1'] 1 rfl rfl rfl
      (by decide) (by decide)⟩,
   ⟨by decide, rfl, rfl,
    claim_C7_array_index_semantics.2 _ [] "5" 5 (by decide) rfl rfl (by decide)⟩⟩

/-- C9: a segment applied to an array that holds any character that is not
a decimal digit at a position other than an optional leading minus makes
navigation yield `ErrInvalidPath`, and `ErrInvalidPath` is not swallowed by
the rule loop: the whole `CutWithRules` call aborts with it. -/
theorem claim_C9_invalid_path_aborts :
    (∀ (xs : JArray) (rest : List String) (s : String),
      hasBadCharFrom s.data 0 = true →
      navigateToValue (.arr xs) (s :: rest) = .error .invalidPath) ∧
    (∀ (data : JValue) (rules₁ : List Rule) (r : Rule) (rules₂ : List Rule)
      (res : JObject),
      applyRulesGo data rules₁ .nil = .ok res →
      applyRule data r res = .error .invalidPath →
      cutWithRules data (rules₁ ++ r :: rules₂) = .error .invalidPath) ∧
    (∀ (data : JValue) (p : String) (rules₂ : List Rule),
      navigateToValue data (splitPath p) = .error .invalidPath →
      cutWithRules data (NewKeepPathRule p :: rules₂) = .error .invalidPath) := by
  refine ⟨?_, ?_, ?_⟩
  · exact fun xs rest s h => navigateToValue_arr_badchar xs rest s h
  · intro data rules₁ r rules₂ res h1 h2
    have hstep : applyRulesGo data (r :: rules₂) res = .error .invalidPath := by
      simp [applyRulesGo, h2]
    simp [cutWithRules, applyRules, applyRulesGo_append, h1, hstep]
  · intro data p rules₂ hnav
    have h2 : applyRule data (NewKeepPathRule p) .nil = .error .invalidPath := by
      simp [applyRule, NewKeepPathRule, KeepPath, applyKeepPathRule, hnav]
    simp [cutWithRules, applyRules, applyRulesGo, h2]

/-- C9 witness: the segment `x2` against an array yields `ErrInvalidPath`,
and a `KeepPath("x2")` rule on an array document aborts the whole call. -/
theorem claim_C9_witness :
    (hasBadCharFrom "x2".data 0 = true ∧
      navigateToValue (.arr (.cons (.num 1) .nil)) ["x2"] = .error .invalidPath) ∧
    cutWithRules (.arr (.cons (.num 1) .nil)) ([] ++ NewKeepPathRule "x2" :: []) =
      .error .invalidPath :=
  ⟨⟨rfl, claim_C9_invalid_path_aborts.1 _ [] "x2" rfl⟩,
   claim_C9_invalid_path_aborts.2.1 _ [] _ [] .nil rfl rfl⟩

/-- C4: with recognized rule types, `CutWithRules` never surfaces
`ErrPathNotFound`; a rule whose path fails to resolve with
`ErrPathNotFound` contributes nothing and evaluation continues with the
remaining rules, while any other error from a rule application aborts the
call with that error. -/
theorem claim_C4_pathNotFound_swallowed :
    (∀ (data : JValue) (rules : List Rule),
      (∀ r ∈ rules, r.typ = KeepPath ∨ r.typ = KeepParentIfValueMatches ∨
        r.typ = KeepArrayElementsIfChildValueMatches) →
      cutWithRules data rules ≠ .error .pathNotFound) ∧
    (∀ (data : JValue) (r : Rule) (rest : List Rule) (result : JObject),
      (r.typ = KeepPath ∨ r.typ = KeepParentIfValueMatches ∨
        r.typ = KeepArrayElementsIfChildValueMatches) →
      navigateToValue data (splitPath r.path) = .error .pathNotFound →
      applyRulesGo data (r :: rest) result = applyRulesGo data rest result) ∧
    (∀ (data : JValue) (r : Rule) (rest : List Rule) (result : JObject)
      (e : CutError),
      applyRule data r result = .error e → e ≠ .pathNotFound →
      applyRulesGo data (r :: rest) result = .error e) := by
  refine ⟨?_, ?_, ?_⟩
  · intro data rules _ hcontra
    have hgo := applyRulesGo_ne_pathNotFound data rules .nil
    unfold cutWithRules applyRules at hcontra
    cases hr : applyRulesGo data rules .nil with
    | ok res => rw [hr] at hcontra; exact absurd hcontra (by simp)
    | error e =>
      rw [hr] at hcontra
      rw [hr] at hgo
      dsimp only at hcontra
      have he : e = CutError.pathNotFound := Except.error.inj hcontra
      rw [he] at hgo
      exact hgo rfl
  · intro data r rest result htyp hnav
    have happly : applyRule data r result = .error .pathNotFound := by
      rcases htyp with h | h | h <;>
        simp [applyRule, h, KeepPath, KeepParentIfValueMatches,
          KeepArrayElementsIfChildValueMatches, applyKeepPathRule,
          applyKeepParentIfValueMatchesRule,
          applyKeepArrayElementsIfChildValueMatchesRule, hnav]
    simp [applyRulesGo, happly]
  · intro data r rest result e h he
    simp [applyRulesGo, h, he]

/-- C4 witness: a `KeepPath` rule on a missing key is a no-op and the call
does not fail with path-not-found; an unrecognized rule type aborts with
`ErrInvalidRule`. -/
theorem claim_C4_witness :
    cutWithRules (.obj .nil) [NewKeepPathRule "a"] ≠ .error .pathNotFound ∧
    applyRulesGo (.obj .nil) [NewKeepPathRule "a"] .nil =
      applyRulesGo (.obj .nil) [] .nil ∧
    applyRulesGo (.obj .nil) [Rule.mk 7 "" .null ""] .nil =
      .error .invalidRule :=
  ⟨claim_C4_pathNotFound_swallowed.1 _ _
      (fun r hr => by rw [List.mem_singleton.mp hr]; exact Or.inl rfl),
   claim_C4_pathNotFound_swallowed.2.1 _ _ [] _ (Or.inl rfl) rfl,
   claim_C4_pathNotFound_swallowed.2.2 _ _ [] _ _ rfl (by decide)⟩

/-- C2: if a `KeepArrayElementsIfChildValueMatches` rule resolves its
`arrayPath` to a value that is not an array, the whole `CutWithRules` call
returns an error and no output, and when the earlier rules would by
themselves have succeeded, the surfaced error is exactly the
"path does not point to an array" one — no partial result is returned. -/
theorem claim_C2_non_array_aborts (data v : JValue) (arrayPath childPath : String)
    (ev : JValue) (rules₁ rules₂ : List Rule)
    (hnav : navigateToValue data (splitPath arrayPath) = .ok v)
    (hnotarr : ∀ xs, v ≠ .arr xs) :
    (∃ e, cutWithRules data
        (rules₁ ++
          NewKeepArrayElementsIfChildValueMatchesRule arrayPath childPath ev :: rules₂)
      = .error e) ∧
    (∀ res, applyRulesGo data rules₁ .nil = .ok res →
      cutWithRules data
        (rules₁ ++
          NewKeepArrayElementsIfChildValueMatchesRule arrayPath childPath ev :: rules₂)
      = .error .notAnArray) := by
  have hstep : ∀ res, applyKeepArrayElementsIfChildValueMatchesRule data arrayPath
      childPath ev res = .error .notAnArray := by
    intro res
    simp only [applyKeepArrayElementsIfChildValueMatchesRule]
    rw [hnav]
    cases v with
    | arr xs => exact absurd rfl (hnotarr xs)
    | null => rfl
    | bool b => rfl
    | num q => rfl
    | str t => rfl
    | obj o => rfl
  have happly : ∀ res, applyRule data
      (NewKeepArrayElementsIfChildValueMatchesRule arrayPath childPath ev) res =
      .error .notAnArray := by
    intro res
    simp [applyRule, NewKeepArrayElementsIfChildValueMatchesRule, KeepPath,
      KeepParentIfValueMatches, KeepArrayElementsIfChildValueMatches, hstep res]
  constructor
  · cases h1 : applyRulesGo data rules₁ .nil with
    | ok res =>
      refine ⟨.notAnArray, ?_⟩
      have hgo : applyRulesGo data
          (NewKeepArrayElementsIfChildValueMatchesRule arrayPath childPath ev ::
            rules₂) res = .error .notAnArray := by
        simp [applyRulesGo, happly res]
      simp [cutWithRules, applyRules, applyRulesGo_append, h1, hgo]
    | error e =>
      refine ⟨e, ?_⟩
      simp [cutWithRules, applyRules, applyRulesGo_append, h1]
  · intro res h1
    have hgo : applyRulesGo data
        (NewKeepArrayElementsIfChildValueMatchesRule arrayPath childPath ev ::
          rules₂) res = .error .notAnArray := by
      simp [applyRulesGo, happly res]
    simp [cutWithRules, applyRules, applyRulesGo_append, h1, hgo]

/-- C2 witness: on `{"a": 1, "b": 2}`, a preceding `KeepPath("b")` rule
succeeds on its own, yet the array-filter rule at the scalar path `a`
aborts the whole call with the non-array error. -/
theorem claim_C2_witness :
    (navigateToValue (.obj (.cons "a" (.num 1) (.cons "b" (.num 2) .nil)))
      (splitPath "a") = .ok (.num 1)) ∧
    (∀ xs, JValue.num 1 ≠ JValue.arr xs) ∧
    ((∃ e, cutWithRules (.obj (.cons "a" (.num 1) (.cons "b" (.num 2) .nil)))
        ([NewKeepPathRule "b"] ++
          NewKeepArrayElementsIfChildValueMatchesRule "a" "c" (.num 1) :: [])
      = .error e) ∧
    (∀ res, applyRulesGo (.obj (.cons "a" (.num 1) (.cons "b" (.num 2) .nil)))
        [NewKeepPathRule "b"] .nil = .ok res →
      cutWithRules (.obj (.cons "a" (.num 1) (.cons "b" (.num 2) .nil)))
        ([NewKeepPathRule "b"] ++
          NewKeepArrayElementsIfChildValueMatchesRule "a" "c" (.num 1) :: [])
      = .error .notAnArray)) :=
 by
  refine ⟨rfl, ?_, ?_⟩
  · intro xs h
    exact JValue.noConfusion h
  · exact claim_C2_non_array_aborts
      (.obj (.cons "a" (.num 1) (.cons "b" (.num 2) .nil))) (.num 1) "a" "c"
      (.num 1) [NewKeepPathRule "b"] [] rfl (fun xs h => JValue.noConfusion h)

/-- C10: a `KeepParentIfValueMatches` rule whose path resolves to a value
that does not deep-equal the expected one is a silent no-op: the call
returns exactly what the empty rule list returns, namely the empty object. -/
theorem claim_C10_nonmatch_noop (data w : JValue) (p : String) (ev : JValue)
    (hnav : navigateToValue data (splitPath p) = .ok w)
    (hne : valueEquals w ev = false) :
    cutWithRules data [NewKeepParentIfValueMatchesRule p ev] =
      cutWithRules data [] ∧
    cutWithRules data [] = .ok (.obj .nil) := by
  constructor
  · simp [cutWithRules, applyRules, applyRulesGo, applyRule,
      NewKeepParentIfValueMatchesRule, KeepPath, KeepParentIfValueMatches,
      KeepArrayElementsIfChildValueMatches, applyKeepParentIfValueMatchesRule,
      hnav, hne]
  · rfl

/-- C10 witness: theme `light` does not match expected `dark`; the rule
contributes nothing and the output equals the zero-rule output. -/
theorem claim_C10_witness :
    (navigateToValue
      (.obj (.cons "user" (.obj (.cons "theme" (.str "light") .nil)) .nil))
      (splitPath "user.theme") = .ok (.str "light")) ∧
    (valueEquals (.str "light") (.str "dark") = false) ∧
    (cutWithRules (.obj (.cons "user" (.obj (.cons "theme" (.str "light") .nil)) .nil))
        [NewKeepParentIfValueMatchesRule "user.theme" (.str "dark")] =
      cutWithRules
        (.obj (.cons "user" (.obj (.cons "theme" (.str "light") .nil)) .nil)) [] ∧
     cutWithRules
        (.obj (.cons "user" (.obj (.cons "theme" (.str "light") .nil)) .nil)) [] =
      .ok (.obj .nil)) :=
  ⟨rfl, rfl, claim_C10_nonmatch_noop _ _ _ _ rfl rfl⟩

/-- C6: a matching `KeepParentIfValueMatches` rule with a multi-segment
path hands the assembler the parent path (the path with its last segment
dropped) together with the entire value found at that parent path, so the
sibling fields of the matched leaf are kept; with a single-segment path it
hands the assembler the matched leaf itself at that segment. -/
theorem claim_C6_parent_kept (data v : JValue) (p : String) (ev : JValue)
    (result : JObject)
    (hnav : navigateToValue data (splitPath p) = .ok v)
    (heq : valueEquals v ev = true) :
    (1 < (splitPath p).length →
      ∃ pv, navigateToValue data (splitPath p).dropLast = .ok pv ∧
        applyKeepParentIfValueMatchesRule data p ev result =
          .ok (buildResultStructure result (splitPath p).dropLast pv)) ∧
    ((splitPath p).length = 1 →
      applyKeepParentIfValueMatchesRule data p ev result =
        .ok (buildResultStructure result (splitPath p) v)) := by
  have hcond : ¬(valueEquals v ev = false) := by simp [heq]
  constructor
  · intro hlen
    have hsplit : (splitPath p).dropLast ++
        [(splitPath p).getLast (splitPath_ne_nil p)] = splitPath p :=
      List.dropLast_append_getLast (splitPath_ne_nil p)
    obtain ⟨pv, hpv, _⟩ := navigateToValue_prefix (splitPath p).dropLast
      [(splitPath p).getLast (splitPath_ne_nil p)] data v
      (by rw [hsplit]; exact hnav)
    refine ⟨pv, hpv, ?_⟩
    simp only [applyKeepParentIfValueMatchesRule]
    rw [hnav]
    dsimp only
    rw [if_neg hcond, if_pos hlen, hpv]
  · intro hlen
    simp only [applyKeepParentIfValueMatchesRule]
    rw [hnav]
    dsimp only
    rw [if_neg hcond, if_neg (by omega : ¬1 < (splitPath p).length)]

/-- C6 witness: the spec example — a matching theme keeps the whole
`user.preferences` parent value, sibling field included. -/
theorem claim_C6_witness :
    (navigateToValue
      (.obj (.cons "user"
        (.obj (.cons "preferences"
          (.obj (.cons "theme" (.str "dark")
            (.cons "notifications" (.bool true) .nil)))
          (.cons "name" (.str "Alice") .nil))) .nil))
      (splitPath "user.preferences.theme") = .ok (.str "dark")) ∧
    (valueEquals (.str "dark") (.str "dark") = true) ∧
    ((1 < (splitPath "user.preferences.theme").length →
      ∃ pv, navigateToValue
          (.obj (.cons "user"
            (.obj (.cons "preferences"
              (.obj (.cons "theme" (.str "dark")
                (.cons "notifications" (.bool true) .nil)))
              (.cons "name" (.str "Alice") .nil))) .nil))
          (splitPath "user.preferences.theme").dropLast = .ok pv ∧
        applyKeepParentIfValueMatchesRule
          (.obj (.cons "user"
            (.obj (.cons "preferences"
              (.obj (.cons "theme" (.str "dark")
                (.cons "notifications" (.bool true) .nil)))
              (.cons "name" (.str "Alice") .nil))) .nil))
          "user.preferences.theme" (.str "dark") .nil =
          .ok (buildResultStructure .nil
            (splitPath "user.preferences.theme").dropLast pv)) ∧
    ((splitPath "user.preferences.theme").length = 1 →
      applyKeepParentIfValueMatchesRule
        (.obj (.cons "user"
          (.obj (.cons "preferences"
            (.obj (.cons "theme" (.str "dark")
              (.cons "notifications" (.bool true) .nil)))
            (.cons "name" (.str "Alice") .nil))) .nil))
        "user.preferences.theme" (.str "dark") .nil =
        .ok (buildResultStructure .nil (splitPath "user.preferences.theme")
          (.str "dark")))) :=
  ⟨rfl, rfl, claim_C6_parent_kept _ _ _ _ _ rfl rfl⟩

/-- C5: the array-filter rule keeps exactly the elements on which the
child path resolves to a value deep-equal to the expected one; the kept
elements form a sublist of the original array (original relative order,
elements unmodified); an element whose child path fails to resolve is
excluded; and when nothing matches the rule leaves the result untouched,
so the array path is absent rather than present as an empty array. -/
theorem claim_C5_filter_semantics (data : JValue) (arrayPath childPath : String)
    (ev : JValue) (result : JObject) (array : JArray)
    (hnav : navigateToValue data (splitPath arrayPath) = .ok (.arr array)) :
    ∃ kept : JArray,
      applyKeepArrayElementsIfChildValueMatchesRule data arrayPath childPath
          ev result =
        .ok (if kept.toList = [] then result
          else buildResultStructure result (splitPath arrayPath) (.arr kept)) ∧
      kept.toList.Sublist array.toList ∧
      (∀ el, el ∈ kept.toList ↔ (el ∈ array.toList ∧
        ∃ cv, navigateToValue el (splitPath childPath) = .ok cv ∧
          valueEquals cv ev = true)) := by
  refine ⟨filterMatches (splitPath childPath) ev array, ?_, ?_, ?_⟩
  · simp only [applyKeepArrayElementsIfChildValueMatchesRule]
    rw [hnav]
    dsimp only
    by_cases he : (filterMatches (splitPath childPath) ev array).toList = []
    · have h0 : ¬(0 < (filterMatches (splitPath childPath) ev array).length) := by
        rw [arrLength_toList, he]
        simp
      rw [if_neg h0, if_pos he]
    · have h0 : 0 < (filterMatches (splitPath childPath) ev array).length := by
        rw [arrLength_toList]
        exact List.length_pos.mpr he
      rw [if_pos h0, if_neg he]
  · rw [filterMatches_toList]
    exact List.filter_sublist _
  · intro el
    simp only [filterMatches_toList, List.mem_filter, elementMatches_iff]

/-- C5 witness: of two products, only the `electronics` one is kept, in
place, and the rule writes the filtered array under `products`. -/
theorem claim_C5_witness :
    (navigateToValue
      (.obj (.cons "products"
        (.arr (.cons
          (.obj (.cons "category" (.str "electronics") (.cons "id" (.num 1) .nil)))
          (.cons (.obj (.cons "category" (.str "accessories") .nil)) .nil))) .nil))
      (splitPath "products") =
      .ok (.arr (.cons
        (.obj (.cons "category" (.str "electronics") (.cons "id" (.num 1) .nil)))
        (.cons (.obj (.cons "category" (.str "accessories") .nil)) .nil)))) ∧
    (∃ kept : JArray,
      applyKeepArrayElementsIfChildValueMatchesRule
        (.obj (.cons "products"
          (.arr (.cons
            (.obj (.cons "category" (.str "electronics") (.cons "id" (.num 1) .nil)))
            (.cons (.obj (.cons "category" (.str "accessories") .nil)) .nil))) .nil))
        "products" "category" (.str "electronics") .nil =
        .ok (if kept.toList = [] then .nil
          else buildResultStructure .nil (splitPath "products") (.arr kept)) ∧
      kept.toList.Sublist (JArray.cons
        (.obj (.cons "category" (.str "electronics") (.cons "id" (.num 1) .nil)))
        (.cons (.obj (.cons "category" (.str "accessories") .nil)) .nil)).toList ∧
      (∀ el, el ∈ kept.toList ↔ (el ∈ (JArray.cons
          (.obj (.cons "category" (.str "electronics") (.cons "id" (.num 1) .nil)))
          (.cons (.obj (.cons "category" (.str "accessories") .nil)) .nil)).toList ∧
        ∃ cv, navigateToValue el (splitPath "category") = .ok cv ∧
          valueEquals cv (.str "electronics") = true))) :=
  ⟨rfl, claim_C5_filter_semantics _ _ _ _ _ _ rfl⟩

/-- C1 counterexample: on the document `{"a": [5]}` the path `a.0`
resolves (to 5), yet `CutWithRules` with `KeepPath("a.0")` outputs
`{"a": []}` — the assembler creates an empty array for the numeric next
segment and stops — so re-navigating `a.0` on the output fails with
`ErrPathNotFound` instead of returning the original value, refuting the
claim for paths with array-index segments. -/
theorem claim_C1_counterexample :
    navigateToValue (.obj (.cons "a" (.arr (.cons (.num 5) .nil)) .nil))
      (splitPath "a.0") = .ok (.num 5) ∧
    cutWithRules (.obj (.cons "a" (.arr (.cons (.num 5) .nil)) .nil))
      [NewKeepPathRule "a.0"] = .ok (.obj (.cons "a" (.arr .nil) .nil)) ∧
    navigateToValue (.obj (.cons "a" (.arr .nil) .nil)) (splitPath "a.0") =
      .error .pathNotFound :=
  ⟨rfl, rfl, rfl⟩

/-- C1 (amended): for every well-formed document and every path `p` whose
dot-split segments resolve, and no segment of which after the first is
numeric (array-index-shaped), `CutWithRules` with the single rule
`KeepPath(p)` yields an output in which re-navigating the same segments
succeeds and returns a value deep-equal to the value at `p` in the input. -/
theorem claim_C1_roundtrip (data v : JValue) (p : String)
    (hwf : wfValue data = true)
    (hnav : navigateToValue data (splitPath p) = .ok v)
    (htail : ∀ s ∈ (splitPath p).tail, isNumeric s = false) :
    ∃ out w, cutWithRules data [NewKeepPathRule p] = .ok out ∧
      navigateToValue out (splitPath p) = .ok w ∧ valueEquals w v = true := by
  refine ⟨.obj (buildResultStructure .nil (splitPath p) v), v, ?_, ?_, ?_⟩
  · simp [cutWithRules, applyRules, applyRulesGo, applyRule, NewKeepPathRule,
      KeepPath, KeepParentIfValueMatches, KeepArrayElementsIfChildValueMatches,
      applyKeepPathRule, hnav]
  · exact navigateToValue_build (splitPath p) v (splitPath_ne_nil p) htail
  · exact valueEquals_refl v (wfValue_navigate (splitPath p) data v hwf hnav)

/-- C1 witness: round trip of `a.b` on `{"a": {"b": 5}}`. -/
theorem claim_C1_witness :
    wfValue (.obj (.cons "a" (.obj (.cons "b" (.num 5) .nil)) .nil)) = true ∧
    navigateToValue (.obj (.cons "a" (.obj (.cons "b" (.num 5) .nil)) .nil))
      (splitPath "a.b") = .ok (.num 5) ∧
    (∀ s ∈ (splitPath "a.b").tail, isNumeric s = false) ∧
    (∃ out w, cutWithRules (.obj (.cons "a" (.obj (.cons "b" (.num 5) .nil)) .nil))
        [NewKeepPathRule "a.b"] = .ok out ∧
      navigateToValue out (splitPath "a.b") = .ok w ∧
      valueEquals w (.num 5) = true) :=
  ⟨rfl, rfl, by decide, claim_C1_roundtrip _ _ _ rfl rfl (by decide)⟩

/-- C8: the deep equality used by the conditional rules is structural:
numbers compare by their numeric value — so two differently written
numerals, such as `30` in the configuration and `30.0` in the document,
decode to values the comparison judges equal — strings by content,
booleans by identity, `null` only equal to `null`, arrays by equal length
with position-wise recursively equal elements, and objects by equal key
sets with recursively equal values key by key. -/
theorem claim_C8_deep_equality :
    (∀ a b : Rat, valueEquals (.num a) (.num b) = true ↔ a = b) ∧
    (∃ q q2 : Rat, parseDecimal "30" = some q ∧ parseDecimal "30.0" = some q2 ∧
      q = q2 ∧ valueEquals (.num q) (.num q2) = true) ∧
    (∀ s t : String, valueEquals (.str s) (.str t) = true ↔ s = t) ∧
    (∀ x y : Bool, valueEquals (.bool x) (.bool y) = true ↔ x = y) ∧
    (∀ v : JValue, valueEquals .null v = true ↔ v = .null) ∧
    (∀ a b : JArray, valueEquals (.arr a) (.arr b) = true ↔
      (a.length = b.length ∧
        ∀ i, i < a.length → valueEquals (a.getD i) (b.getD i) = true)) ∧
    (∀ a b : JObject, keysNodup a = true → keysNodup b = true →
      (valueEquals (.obj a) (.obj b) = true ↔
        ((∀ k, (a.lookup k).isSome = true ↔ (b.lookup k).isSome = true) ∧
         (∀ k v w, a.lookup k = some v → b.lookup k = some w →
           valueEquals v w = true)))) := by
  refine ⟨?_, ?_, ?_, ?_, ?_, ?_, ?_⟩
  · intro a b; simp [valueEquals]
  · have h30 : parseDecimal "30" = some ((30 : Nat) : Rat) := rfl
    have h300 : parseDecimal "30.0" =
        some (((30 : Nat) : Rat) + ((0 : Nat) : Rat) / (10 : Rat) ^ 1) := rfl
    refine ⟨30, 30, ?_, ?_, rfl, by simp [valueEquals]⟩
    · rw [h30]; norm_num
    · rw [h300]; norm_num
  · intro s t; simp [valueEquals]
  · intro x y; simp [valueEquals]
  · intro v; cases v <;> simp [valueEquals]
  · intro a b
    show arrEquals a b = true ↔ _
    exact arrEquals_iff a b
  · exact valueEquals_obj_iff

/-- C8 witness: the object characterization applied at a concrete
single-entry map compared with itself. -/
theorem claim_C8_witness :
    keysNodup (.cons "a" (.num 30) .nil) = true ∧
    (valueEquals (.obj (.cons "a" (.num 30) .nil))
        (.obj (.cons "a" (.num 30) .nil)) = true ↔
      ((∀ k, ((JObject.cons "a" (.num 30) .nil).lookup k).isSome = true ↔
        ((JObject.cons "a" (.num 30) .nil).lookup k).isSome = true) ∧
       (∀ k v w, (JObject.cons "a" (.num 30) .nil).lookup k = some v →
         (JObject.cons "a" (.num 30) .nil).lookup k = some w →
         valueEquals v w = true))) :=
  ⟨rfl, claim_C8_deep_equality.2.2.2.2.2.2 _ _ rfl rfl⟩

end CutJson
